import Mathlib

/-!
Verification of the rs-bugspots fix-scoring pipeline.

The program (src/lib.rs) classifies commits as bug fixes by matching their
first message line against a pattern, folds the resulting ordered `Fix`
sequence into a per-file hotspot score using a logistic time-decay weight,
and sorts the resulting `Spot` list by descending score.

The embedding below models:
  * `Fix` and `Spot` (lib.rs lines 12-23), with commit dates as integer Unix
    seconds (the source only ever subtracts two dates and takes
    `num_seconds`, so integer seconds capture all date arithmetic exactly);
  * `diff` (lib.rs lines 173-184) twice: `F` is an IEEE-754-double-shaped
    value domain (NaN, infinities, finite reals; rounding idealized away)
    and `Bugspots.diff` follows the source expression over `F`, so the
    division-by-zero and NaN-propagation behaviour of the f64 code is
    explicit; `diffReal` is the plain real-number reading used by the
    aggregate theorems, and `diff_eq_fin_diffReal` proves the two agree
    whenever the normalization divisor is nonzero;
  * the scoring fold of `scan` (lib.rs lines 146-159): the
    `HashMap<String, f64>` becomes an association list, `hotspots.get`
    with default 0.0 becomes `getScore`, `hotspots.insert` becomes
    `insertScore`, and `fixes.last().unwrap()` becomes `List.getLast?`,
    with `none` modelling the unwrap panic on an empty fix list;
  * the ranking step (lib.rs lines 161-168): HashMap iteration order is
    unspecified, so producing the `Spot` list is modelled by the relation
    `ranks`, quantifying over all permutations of the map entries;
    `sort_by` is a stable sort, and a stable sort of a list by a total
    preorder has a unique result, so it is modelled by
    `List.insertionSort`; the `partial_cmp(..).unwrap()` panic behaviour
    is modelled separately over `F` by `sortSpotsF`, where a comparison
    involving NaN aborts the sort;
  * the pattern construction `reg` / `reg_from_words` (lib.rs lines
    55-73) over `List Char`, and — since the `regex` crate is an external
    collaborator — a small semantic model `RE` of the regex subset the
    program builds (literals, alternation, concatenation, option), with
    unanchored matching `isMatch`.
-/

namespace Bugspots

/-- `Fix` record, lib.rs lines 12-17.  `date` is the commit timestamp in
integer Unix seconds (`commit.time().seconds()`). -/
structure Fix where
  message : String
  date : Int
  files : List String
deriving DecidableEq

/-- `Spot` record, lib.rs lines 19-23, over the exact-real score model. -/
structure Spot where
  file : String
  score : ℝ

/-- IEEE-754 double value domain with rounding idealized away: NaN, the two
infinities, or a finite real. -/
inductive F where
  | nan : F
  | pinf : F
  | ninf : F
  | fin : ℝ → F
deriving Inhabited

namespace F

/-- Double negation (sign flip). -/
def neg : F → F
  | nan => nan
  | pinf => ninf
  | ninf => pinf
  | fin a => fin (-a)

/-- Double addition: NaN propagates, opposite infinities give NaN. -/
def add : F → F → F
  | nan, _ => nan
  | _, nan => nan
  | pinf, ninf => nan
  | ninf, pinf => nan
  | pinf, _ => pinf
  | _, pinf => pinf
  | ninf, _ => ninf
  | _, ninf => ninf
  | fin a, fin b => fin (a + b)

/-- Double subtraction. -/
def sub (x y : F) : F := add x (neg y)

/-- Double multiplication: NaN propagates, infinity times zero is NaN. -/
noncomputable def mul : F → F → F
  | nan, _ => nan
  | _, nan => nan
  | pinf, pinf => pinf
  | pinf, ninf => ninf
  | ninf, pinf => ninf
  | ninf, ninf => pinf
  | pinf, fin b => if 0 < b then pinf else if b < 0 then ninf else nan
  | fin a, pinf => if 0 < a then pinf else if a < 0 then ninf else nan
  | ninf, fin b => if 0 < b then ninf else if b < 0 then pinf else nan
  | fin a, ninf => if 0 < a then ninf else if a < 0 then pinf else nan
  | fin a, fin b => fin (a * b)

/-- Double division: NaN propagates, `0/0` and `inf/inf` are NaN, a nonzero
finite numerator over (positive) zero gives a signed infinity.  (The integer
casts feeding `diff` never produce a negative zero, so the dividing-by-zero
case always behaves as division by `+0`.) -/
noncomputable def div : F → F → F
  | nan, _ => nan
  | _, nan => nan
  | pinf, pinf => nan
  | pinf, ninf => nan
  | ninf, pinf => nan
  | ninf, ninf => nan
  | pinf, fin b => if b < 0 then ninf else pinf
  | ninf, fin b => if b < 0 then pinf else ninf
  | fin _, pinf => fin 0
  | fin _, ninf => fin 0
  | fin a, fin b =>
    if b = 0 then
      if a = 0 then nan else if 0 < a then pinf else ninf
    else fin (a / b)

/-- Double `exp`: `exp NaN = NaN`, `exp (+inf) = +inf`, `exp (-inf) = 0`. -/
noncomputable def exp : F → F
  | nan => nan
  | pinf => pinf
  | ninf => fin 0
  | fin a => fin (Real.exp a)

end F

/-- `diff`, lib.rs lines 173-184, translated expression-for-expression over
the double model `F`:
`t = 1.0 - ((now - fix_date).num_seconds() as f64 / (now - oldest).num_seconds() as f64)`
and the returned weight is `1.0 / (1.0 + ((-12.0 * t) + 12.0).exp())`. -/
noncomputable def diff (current_time oldest_fix_date fix_date : Int) : F :=
  let t := F.sub (F.fin 1)
    (F.div (F.fin ((current_time - fix_date : Int) : ℝ))
           (F.fin ((current_time - oldest_fix_date : Int) : ℝ)))
  F.div (F.fin 1) (F.add (F.fin 1) (F.exp (F.add (F.mul (F.fin (-12)) t) (F.fin 12))))

/-- The same expression read over plain real arithmetic; faithful to the f64
code whenever the divisor `now - oldest` is nonzero (see
`diff_eq_fin_diffReal`). -/
noncomputable def diffReal (current_time oldest_fix_date fix_date : Int) : ℝ :=
  let t : ℝ :=
    1 - ((current_time - fix_date : Int) : ℝ) / ((current_time - oldest_fix_date : Int) : ℝ)
  1 / (1 + Real.exp (-12 * t + 12))

theorem diff_eq_fin_diffReal (now oldest d : Int) (h : now ≠ oldest) :
    diff now oldest d = F.fin (diffReal now oldest d) := by
  have hz : ((now - oldest : Int) : ℝ) ≠ 0 := by
    simpa [sub_eq_zero] using h
  have hpos : (1 : ℝ) + Real.exp (-12 * (1 - ((now - d : Int) : ℝ) / ((now - oldest : Int) : ℝ)) + 12) ≠ 0 := by
    positivity
  simp only [diff, diffReal, F.div, F.sub, F.neg, F.add, F.mul, F.exp, if_neg hz,
    ← sub_eq_add_neg]
  rw [if_neg hpos]

/-- `hotspots.get(file)` with the `_ => &0.0` default, lib.rs lines 152-156.
The `HashMap<String, f64>` is modelled as an association list. -/
def getScore (m : List (String × ℝ)) (file : String) : ℝ :=
  match m with
  | [] => 0
  | p :: ps => if p.1 = file then p.2 else getScore ps file

/-- `hotspots.insert(String::from(file), t + value)`, lib.rs line 157:
replace the binding for `file` if present, otherwise add one. -/
def insertScore (file : String) (v : ℝ) : List (String × ℝ) → List (String × ℝ)
  | [] => [(file, v)]
  | p :: ps => if p.1 = file then (file, v) :: ps else p :: insertScore file v ps

/-- The inner loop of the scoring fold, lib.rs lines 150-158: for one `Fix`,
walk its file list, and for each file insert `t + value` where
`t = diff(current_time, oldest_fix_date, fix.date)` and `value` is the file's
current score (default 0). -/
noncomputable def addFix (now oldest : Int) (m : List (String × ℝ)) (f : Fix) :
    List (String × ℝ) :=
  f.files.foldl (fun m file => insertScore file (diffReal now oldest f.date + getScore m file) m) m

/-- The scoring part of `scan`, lib.rs lines 146-159: `oldest_fix_date` is
`fixes.last().unwrap().date`; `none` models the `unwrap` panic when the fix
list is empty.  `current_time` (`time::now()`, sampled once per run) is the
`now` parameter. -/
noncomputable def scanScores (now : Int) (fixes : List Fix) :
    Option (List (String × ℝ)) :=
  match fixes.getLast? with
  | none => none
  | some lastFix => some (fixes.foldl (addFix now lastFix.date) [])

theorem getScore_insertScore (m : List (String × ℝ)) (k q : String) (v : ℝ) :
    getScore (insertScore k v m) q = if q = k then v else getScore m q := by
  induction m with
  | nil =>
    by_cases h : q = k
    · simp [insertScore, getScore, h]
    · simp [insertScore, getScore, h, Ne.symm h]
  | cons p ps ih =>
    by_cases hp : p.1 = k
    · by_cases h : q = k
      · simp [insertScore, getScore, hp, h]
      · simp [insertScore, getScore, hp, h, Ne.symm h,
          show ¬ p.1 = q from fun hc => h (hc.symm.trans hp)]
    · by_cases h : q = k
      · subst h
        have hpq : ¬ p.1 = q := hp
        simp [insertScore, getScore, hp, hpq, ih]
      · simp [insertScore, getScore, hp, h, ih]

theorem getScore_addFix (now oldest : Int) (f : Fix) (m : List (String × ℝ))
    (p : String) :
    getScore (addFix now oldest m f) p =
      getScore m p + f.files.count p * diffReal now oldest f.date := by
  rw [addFix]
  induction f.files generalizing m with
  | nil => simp
  | cons file files ih =>
    rw [List.foldl_cons, ih, getScore_insertScore, List.count_cons]
    by_cases h : p = file
    · simp only [h, if_pos rfl, beq_self_eq_true, if_pos]
      push_cast
      ring
    · have : ¬ (file == p) = true := by simpa [beq_iff_eq] using fun hc => h hc.symm
      simp only [if_neg h, this, if_neg, Bool.false_eq_true]
      push_cast
      ring

theorem getScore_foldl_addFix (now oldest : Int) (fixes : List Fix)
    (m : List (String × ℝ)) (p : String) :
    getScore (fixes.foldl (addFix now oldest) m) p =
      getScore m p +
        (fixes.map fun f => (f.files.count p : ℝ) * diffReal now oldest f.date).sum := by
  induction fixes generalizing m with
  | nil => simp
  | cons f fixes ih =>
    rw [List.foldl_cons, ih, getScore_addFix, List.map_cons, List.sum_cons]
    ring

theorem mem_keys_insertScore (m : List (String × ℝ)) (k q : String) (v : ℝ) :
    q ∈ (insertScore k v m).map Prod.fst ↔ q = k ∨ q ∈ m.map Prod.fst := by
  induction m with
  | nil => simp [insertScore]
  | cons p ps ih =>
    by_cases hp : p.1 = k
    · subst hp
      simp only [insertScore, List.map_cons, List.mem_cons, if_pos]
      tauto
    · simp only [insertScore, if_neg hp, List.map_cons, List.mem_cons, ih]
      tauto

theorem mem_keys_addFix (now oldest : Int) (f : Fix) (m : List (String × ℝ))
    (q : String) :
    q ∈ (addFix now oldest m f).map Prod.fst ↔ q ∈ f.files ∨ q ∈ m.map Prod.fst := by
  rw [addFix]
  induction f.files generalizing m with
  | nil => simp
  | cons file files ih =>
    rw [List.foldl_cons]
    rw [ih]
    simp only [mem_keys_insertScore, List.mem_cons]
    tauto

theorem mem_keys_foldl_addFix (now oldest : Int) (fixes : List Fix)
    (m : List (String × ℝ)) (q : String) :
    q ∈ (fixes.foldl (addFix now oldest) m).map Prod.fst ↔
      (∃ f ∈ fixes, q ∈ f.files) ∨ q ∈ m.map Prod.fst := by
  induction fixes generalizing m with
  | nil => simp
  | cons f fixes ih =>
    rw [List.foldl_cons, ih]
    simp only [mem_keys_addFix, List.mem_cons]
    constructor
    · rintro (⟨g, hg, hq⟩ | h | h)
      · exact Or.inl ⟨g, Or.inr hg, hq⟩
      · exact Or.inl ⟨f, Or.inl rfl, h⟩
      · exact Or.inr h
    · rintro (⟨g, hgf | hgf, hq⟩ | h)
      · exact Or.inr (Or.inl (hgf ▸ hq))
      · exact Or.inl ⟨g, hgf, hq⟩
      · exact Or.inr (Or.inr h)

/-! ### The ranker, lib.rs lines 161-168 -/

/-- The relation `spots.sort_by(|a, b| b.score.partial_cmp(&a.score).unwrap())`
sorts by: `a` precedes `b` when `b.score ≤ a.score` (descending). -/
def spotLE (a b : Spot) : Prop := b.score ≤ a.score

noncomputable instance : DecidableRel spotLE := fun _ _ => Real.decidableLE _ _

instance : IsTotal Spot spotLE := ⟨fun a b => le_total b.score a.score⟩

instance : IsTrans Spot spotLE := ⟨fun _ _ _ h1 h2 => le_trans h2 h1⟩

/-- `sort_by` is a stable sort; the result of a stable sort by a total
preorder is unique, so it is modelled by stable insertion sort. -/
noncomputable def sortSpots (l : List Spot) : List Spot := l.insertionSort spotLE

/-- Turning the map entries produced by `hotspots.iter()` (in whatever order
iteration yields them) into `Spot` records, lib.rs lines 161-167. -/
def spotsOf (m : List (String × ℝ)) : List Spot := m.map fun p => ⟨p.1, p.2⟩

/-- `out` is a possible ranker output for score map `m`: `HashMap` iteration
order is unspecified, so the entry list fed to the sort is any permutation
of the map's entries. -/
def ranks (m : List (String × ℝ)) (out : List Spot) : Prop :=
  ∃ l, m.Perm l ∧ out = sortSpots (spotsOf l)

/-! ### The sort with its panicking comparator, over the double model

`spots.sort_by(|a, b| b.score.partial_cmp(&a.score).unwrap())` unwraps
`partial_cmp`, which on f64 returns `None` exactly when one operand is NaN.
`sortSpotsF` runs the same stable sort over `F`-valued scores but aborts
(returns `none`, the panic) as soon as a performed comparison is undefined. -/

/-- `Spot` over the double model, keeping NaN representable. -/
structure SpotF where
  file : String
  score : F

/-- `partial_cmp` on doubles: `none` iff one operand is NaN. -/
noncomputable def fcmp : F → F → Option Ordering
  | F.nan, _ => none
  | _, F.nan => none
  | F.pinf, F.pinf => some Ordering.eq
  | F.pinf, _ => some Ordering.gt
  | F.ninf, F.ninf => some Ordering.eq
  | _, F.pinf => some Ordering.lt
  | F.ninf, _ => some Ordering.lt
  | _, F.ninf => some Ordering.gt
  | F.fin a, F.fin b =>
    some (if a < b then Ordering.lt else if b < a then Ordering.gt else Ordering.eq)

/-- The comparator passed to `sort_by`: `b.score.partial_cmp(&a.score)`. -/
noncomputable def cmpSpotF (a b : SpotF) : Option Ordering := fcmp b.score a.score

/-- Stable insertion of `x` into an already sorted list, in the order the
comparator dictates; `none` when a performed comparison is undefined. -/
noncomputable def insSpotF (x : SpotF) : List SpotF → Option (List SpotF)
  | [] => some [x]
  | y :: l =>
    match cmpSpotF x y with
    | none => none
    | some Ordering.gt => (insSpotF x l).map (y :: ·)
    | some _ => some (x :: y :: l)

/-- The panic-tracking stable sort over `F`-scored spots. -/
noncomputable def sortSpotsF : List SpotF → Option (List SpotF)
  | [] => some []
  | x :: l => (sortSpotsF l).bind (insSpotF x)

theorem fcmp_isSome (x y : F) (hx : x ≠ F.nan) (hy : y ≠ F.nan) :
    (fcmp x y).isSome = true := by
  cases x <;> cases y <;> simp_all [fcmp]

theorem insSpotF_isSome (x : SpotF) (l : List SpotF) (hx : x.score ≠ F.nan)
    (hl : ∀ s ∈ l, s.score ≠ F.nan) : (insSpotF x l).isSome = true := by
  induction l with
  | nil => simp [insSpotF]
  | cons y l ih =>
    have hy : y.score ≠ F.nan := hl y (List.mem_cons_self y l)
    have hcmp := fcmp_isSome y.score x.score hy hx
    rcases hc : cmpSpotF x y with _ | o
    · have hc2 : fcmp y.score x.score = none := hc
      rw [hc2] at hcmp
      simp at hcmp
    · rw [insSpotF, hc]
      cases o with
      | lt => simp
      | eq => simp
      | gt =>
        have h3 := ih fun s hs => hl s (List.mem_cons_of_mem y hs)
        rcases h4 : insSpotF x l with _ | out1
        · rw [h4] at h3
          simp at h3
        · simp [h4]

theorem mem_insSpotF (x : SpotF) (l out : List SpotF)
    (h : insSpotF x l = some out) : ∀ s ∈ out, s = x ∨ s ∈ l := by
  induction l generalizing out with
  | nil =>
    rw [insSpotF] at h
    cases h
    simp
  | cons y l ih =>
    rw [insSpotF] at h
    rcases hc : cmpSpotF x y with _ | o <;> rw [hc] at h
    · cases h
    · cases o with
      | lt =>
        cases h
        intro s hs
        rcases List.mem_cons.mp hs with hs1 | hs2
        · exact Or.inl hs1
        · rcases List.mem_cons.mp hs2 with hs3 | hs4
          · exact Or.inr (hs3 ▸ List.mem_cons_self y l)
          · exact Or.inr (List.mem_cons_of_mem y hs4)
      | eq =>
        cases h
        intro s hs
        rcases List.mem_cons.mp hs with hs1 | hs2
        · exact Or.inl hs1
        · rcases List.mem_cons.mp hs2 with hs3 | hs4
          · exact Or.inr (hs3 ▸ List.mem_cons_self y l)
          · exact Or.inr (List.mem_cons_of_mem y hs4)
      | gt =>
        rcases ho : insSpotF x l with _ | out1 <;> rw [ho] at h
        · cases h
        · simp only [Option.map_some] at h
          cases h
          intro s hs
          rcases List.mem_cons.mp hs with hs1 | hs2
          · exact Or.inr (hs1 ▸ List.mem_cons_self y l)
          · rcases ih out1 ho s hs2 with hs3 | hs4
            · exact Or.inl hs3
            · exact Or.inr (List.mem_cons_of_mem y hs4)

theorem mem_sortSpotsF (l out : List SpotF) (h : sortSpotsF l = some out) :
    ∀ s ∈ out, s ∈ l := by
  induction l generalizing out with
  | nil =>
    rw [sortSpotsF] at h
    cases h
    exact fun s hs => hs
  | cons x l ih =>
    rw [sortSpotsF] at h
    rcases h2 : sortSpotsF l with _ | out2 <;> rw [h2] at h
    · cases h
    · simp only [Option.some_bind] at h
      intro s hs
      rcases mem_insSpotF x out2 out h s hs with hs1 | hs1
      · exact hs1 ▸ List.mem_cons_self x l
      · exact List.mem_cons_of_mem x (ih out2 h2 s hs1)

theorem sortSpotsF_isSome (l : List SpotF) (hl : ∀ s ∈ l, s.score ≠ F.nan) :
    (sortSpotsF l).isSome = true := by
  induction l with
  | nil => simp [sortSpotsF]
  | cons x l ih =>
    have hx : x.score ≠ F.nan := hl x (List.mem_cons_self x l)
    have hl1 : ∀ s ∈ l, s.score ≠ F.nan := fun s hs => hl s (List.mem_cons_of_mem x hs)
    rcases ho : sortSpotsF l with _ | out
    · rw [ho] at ih
      exact absurd (ih hl1) (by simp)
    · have hmem : ∀ s ∈ out, s.score ≠ F.nan := fun s hs =>
        hl1 s (mem_sortSpotsF l out ho s hs)
      rw [sortSpotsF, ho, Option.some_bind]
      exact insSpotF_isSome x out hx hmem

/-! ### Pattern construction, lib.rs lines 55-73

`reg_from_words` splits the configured word string on `,` and joins the
pieces with `|`; `reg` prefers the word list, then the explicit pattern,
then the built-in default `"(fix(es|ed)?|close([sd])?)"`.  Strings are
modelled as `List Char`.  The `regex` crate itself is an external
collaborator; `RE` below is a semantic model of the regex subset these
patterns use (literal words, alternation, concatenation, option), with
`isMatch` the unanchored `Regex::is_match` semantics. -/

/-- `reg_from_words`, lib.rs lines 65-73: `Some` iff a word list is
configured; the pattern is the comma-separated words joined with `|`. -/
def reg_from_words (words : Option (List Char)) : Option (List Char) :=
  words.map fun w => List.intercalate ['|'] (w.splitOn ',')

/-- `reg`, lib.rs lines 55-63: word-list pattern first, else the explicit
pattern verbatim, else the built-in default. -/
def reg (words regexArg : Option (List Char)) : List Char :=
  match reg_from_words words with
  | some r => r
  | none =>
    match regexArg with
    | some r => r
    | none => "(fix(es|ed)?|close([sd])?)".toList

/-- Regex subset appearing in the program's patterns. -/
inductive RE where
  | lit : List Char → RE
  | alt : RE → RE → RE
  | cat : RE → RE → RE
  | opt : RE → RE

/-- Language semantics of the regex subset. -/
def RE.accepts : RE → List Char → Prop
  | RE.lit w, s => s = w
  | RE.alt r1 r2, s => r1.accepts s ∨ r2.accepts s
  | RE.cat r1 r2, s => ∃ u v, s = u ++ v ∧ r1.accepts u ∧ r2.accepts v
  | RE.opt r1, s => s = [] ∨ r1.accepts s

/-- Unanchored matching, as `Regex::is_match`: some infix of `s` is in the
pattern's language. -/
def isMatch (r : RE) (s : List Char) : Prop := ∃ m, m <:+: s ∧ r.accepts m

/-- The alternation-of-literal-words regex the word-list pattern compiles
to. -/
def wordsRE : List (List Char) → RE
  | [] => RE.lit []
  | [w] => RE.lit w
  | w :: ws => RE.alt (RE.lit w) (wordsRE ws)

/-- Semantic model of the built-in default pattern
`"(fix(es|ed)?|close([sd])?)"`. -/
def defaultRE : RE :=
  RE.alt
    (RE.cat (RE.lit "fix".toList)
      (RE.opt (RE.alt (RE.lit "es".toList) (RE.lit "ed".toList))))
    (RE.cat (RE.lit "close".toList)
      (RE.opt (RE.alt (RE.lit "s".toList) (RE.lit "d".toList))))

theorem isMatch_lit (w s : List Char) : isMatch (RE.lit w) s ↔ w <:+: s := by
  constructor
  · rintro ⟨m, hm, ha⟩
    exact ha ▸ hm
  · intro h
    exact ⟨w, h, rfl⟩

theorem isMatch_alt (r1 r2 : RE) (s : List Char) :
    isMatch (RE.alt r1 r2) s ↔ isMatch r1 s ∨ isMatch r2 s := by
  constructor
  · rintro ⟨m, hm, ha | ha⟩
    · exact Or.inl ⟨m, hm, ha⟩
    · exact Or.inr ⟨m, hm, ha⟩
  · rintro (⟨m, hm, ha⟩ | ⟨m, hm, ha⟩)
    · exact ⟨m, hm, Or.inl ha⟩
    · exact ⟨m, hm, Or.inr ha⟩

theorem isMatch_wordsRE (ws : List (List Char)) (hne : ws ≠ []) (s : List Char) :
    isMatch (wordsRE ws) s ↔ ∃ w ∈ ws, w <:+: s := by
  induction ws with
  | nil => exact absurd rfl hne
  | cons w ws ih =>
    cases ws with
    | nil =>
      rw [wordsRE, isMatch_lit]
      simp
    | cons w2 ws2 =>
      have hstep : wordsRE (w :: w2 :: ws2) = RE.alt (RE.lit w) (wordsRE (w2 :: ws2)) := rfl
      rw [hstep, isMatch_alt, isMatch_lit, ih (List.cons_ne_nil w2 ws2)]
      constructor
      · rintro (h | ⟨u, hu, hus⟩)
        · exact ⟨w, List.mem_cons_self _ _, h⟩
        · exact ⟨u, List.mem_cons_of_mem w hu, hus⟩
      · rintro ⟨u, hu, hus⟩
        rcases List.mem_cons.mp hu with h1 | h1
        · exact Or.inl (h1 ▸ hus)
        · exact Or.inr ⟨u, h1, hus⟩

/-- What `cat (lit w) (opt (alt (lit a) (lit b)))` accepts: the bare word or
one of its two extensions. -/
theorem accepts_cat_lit_opt (w a b m : List Char) :
    (RE.cat (RE.lit w) (RE.opt (RE.alt (RE.lit a) (RE.lit b)))).accepts m ↔
      m = w ∨ m = w ++ a ∨ m = w ++ b := by
  constructor
  · rintro ⟨u, v, hm, hu, hv | hv | hv⟩
    · subst hu hv
      exact Or.inl (by simpa using hm)
    · subst hu hv
      exact Or.inr (Or.inl hm)
    · subst hu hv
      exact Or.inr (Or.inr hm)
  · rintro (h | h | h)
    · exact ⟨w, [], by simpa using h, rfl, Or.inl rfl⟩
    · exact ⟨w, a, h, rfl, Or.inr (Or.inl rfl)⟩
    · exact ⟨w, b, h, rfl, Or.inr (Or.inr rfl)⟩

theorem isMatch_cat_lit_opt (w a b s : List Char) :
    isMatch (RE.cat (RE.lit w) (RE.opt (RE.alt (RE.lit a) (RE.lit b)))) s ↔
      (w <:+: s ∨ (w ++ a) <:+: s ∨ (w ++ b) <:+: s) := by
  constructor
  · rintro ⟨m, hm, ha⟩
    rcases (accepts_cat_lit_opt w a b m).mp ha with h | h | h
    · exact Or.inl (h ▸ hm)
    · exact Or.inr (Or.inl (h ▸ hm))
    · exact Or.inr (Or.inr (h ▸ hm))
  · rintro (h | h | h)
    · exact ⟨w, h, (accepts_cat_lit_opt w a b w).mpr (Or.inl rfl)⟩
    · exact ⟨w ++ a, h, (accepts_cat_lit_opt w a b _).mpr (Or.inr (Or.inl rfl))⟩
    · exact ⟨w ++ b, h, (accepts_cat_lit_opt w a b _).mpr (Or.inr (Or.inr rfl))⟩

/-! ### Shared evaluation lemmas -/

theorem diff_self_nan (n : Int) : diff n n n = F.nan := by
  have h0 : ((n - n : Int) : ℝ) = 0 := by rw [sub_self, Int.cast_zero]
  simp [diff, h0, F.div, F.sub, F.neg, F.add, F.mul, F.exp]

theorem diffReal_fix_at_now (now oldest : Int) :
    diffReal now oldest now = 1 / 2 := by
  simp only [diffReal, sub_self, Int.cast_zero, zero_div, sub_zero]
  norm_num [Real.exp_zero]

/-! ### Claims -/

/-- C1 (code_bug): the spec requires that a scan finding no qualifying fix
commits ends normally with an empty Fix list and an empty hotspot list, but
`scan` (lib.rs line 148) runs `fixes.last().unwrap()` unconditionally, which
panics on an empty fix list: the scoring stage aborts (`none`) instead of
producing an empty result. -/
theorem scan_empty_fixes_panics (now : Int) : scanScores now [] = none := rfl

/-- C2 (code_bug): the spec requires the zero-divisor case `now == oldest`
to be guarded (define `t = 1` or reject with an error), but `diff`
(lib.rs lines 180-183) divides unconditionally: with a single fix dated at
the scan time both `num_seconds` differences are 0, the f64 division is
`0.0 / 0.0 = NaN`, and NaN propagates through the whole weight
expression. -/
theorem diff_zero_divisor_propagates_nan (n : Int) : diff n n n = F.nan :=
  diff_self_nan n

/-- C3 (confirmed): for a nonempty ordered Fix sequence, `scan` takes
`oldest` to be the date of the last Fix record, and each file `p` ends with
accumulated score `Σ_f count(p, f.files) · w(f)` where
`w(f) = 1 / (1 + exp(-12·t + 12))`, `t = 1 - (now - f.date)/(now - oldest)`
in seconds, and `now` is the single per-run scan time. -/
theorem scan_scores_logistic_sum (now : Int) (fixes : List Fix) (lastFix : Fix)
    (h : fixes.getLast? = some lastFix) (p : String) :
    ∃ m, scanScores now fixes = some m ∧
      getScore m p =
        (fixes.map fun f => (f.files.count p : ℝ) * diffReal now lastFix.date f.date).sum := by
  refine ⟨fixes.foldl (addFix now lastFix.date) [], ?_, ?_⟩
  · rw [scanScores, h]
  · rw [getScore_foldl_addFix]
    simp [getScore]

theorem scan_scores_logistic_sum_witness :
    ∃ m, scanScores 150 [⟨"fix a", 100, ["a"]⟩, ⟨"fix b", 50, ["a", "b"]⟩] = some m ∧
      getScore m "a" =
        (([⟨"fix a", 100, ["a"]⟩, ⟨"fix b", 50, ["a", "b"]⟩] : List Fix).map
          fun f => (f.files.count "a" : ℝ) * diffReal 150 50 f.date).sum :=
  scan_scores_logistic_sum 150 _ ⟨"fix b", 50, ["a", "b"]⟩ (by decide) "a"

/-- C4 (corrected, counterexample): the claimed value is wrong: with
`fix_date = now` and `oldest` a large margin earlier, `diff` returns
`1 / (1 + exp 0) = 0.5`, not `1.0` — shown here at
`now = fix_date = 1000000`, `oldest = 0`. -/
theorem diff_at_now_not_one : diff 1000000 0 1000000 ≠ F.fin 1 := by
  rw [diff_eq_fin_diffReal 1000000 0 1000000 (by decide), diffReal_fix_at_now]
  intro hc
  injection hc with hc1
  norm_num at hc1

/-- C4 (amended): when `fix_date = now` and `oldest` is strictly earlier
than `now`, the returned weight is exactly `0.5` (the numerator is exactly
0, `t` is exactly 1, and `1/(1 + exp 0) = 1/2`; every step is exact in f64
as well). -/
theorem diff_at_now_eq_half (now oldest : Int) (h : oldest < now) :
    diffReal now oldest now = 1 / 2 ∧ diff now oldest now = F.fin (1 / 2) := by
  refine ⟨diffReal_fix_at_now now oldest, ?_⟩
  rw [diff_eq_fin_diffReal now oldest now (ne_of_gt h), diffReal_fix_at_now]

theorem diff_at_now_eq_half_witness :
    diffReal 1000000 0 1000000 = 1 / 2 ∧ diff 1000000 0 1000000 = F.fin (1 / 2) :=
  diff_at_now_eq_half 1000000 0 (by decide)

/-- C5 (corrected, counterexample): the ranker output is not deterministic
for a given score mapping: `spots` is filled from `HashMap` iteration
(unspecified, seed-randomized order), the stable sort keeps that order
among equal scores, and there is no secondary sort key.  Two iteration
orders of the same two-entry mapping with tied scores produce two different
output sequences. -/
theorem ranks_not_deterministic :
    ranks [("a", (1 : ℝ)), ("b", 1)] (sortSpots (spotsOf [("a", 1), ("b", 1)])) ∧
    ranks [("a", (1 : ℝ)), ("b", 1)] (sortSpots (spotsOf [("b", 1), ("a", 1)])) ∧
    sortSpots (spotsOf [("a", (1 : ℝ)), ("b", 1)]) ≠
      sortSpots (spotsOf [("b", (1 : ℝ)), ("a", 1)]) := by
  refine ⟨⟨_, List.Perm.refl _, rfl⟩, ⟨_, List.Perm.swap _ _ _, rfl⟩, ?_⟩
  have e1 : sortSpots (spotsOf [("a", (1 : ℝ)), ("b", 1)]) = [⟨"a", 1⟩, ⟨"b", 1⟩] := by
    simp [sortSpots, spotsOf, List.insertionSort, List.orderedInsert, spotLE]
  have e2 : sortSpots (spotsOf [("b", (1 : ℝ)), ("a", 1)]) = [⟨"b", 1⟩, ⟨"a", 1⟩] := by
    simp [sortSpots, spotsOf, List.insertionSort, List.orderedInsert, spotLE]
  rw [e1, e2]
  intro hc
  injection hc with h1 _
  injection h1 with ha _
  exact absurd ha (by decide)

/-- C5 (amended): for every iteration order of the score mapping, the
ranker output is sorted non-increasing by score; but the order among
entries with equal scores is the hash map's unspecified iteration order,
so it is not deterministic for a given mapping (see
`ranks_not_deterministic`). -/
theorem ranks_sorted (m : List (String × ℝ)) (out : List Spot)
    (h : ranks m out) : out.Sorted spotLE := by
  obtain ⟨l, _, rfl⟩ := h
  exact List.sorted_insertionSort spotLE (spotsOf l)

theorem ranks_sorted_witness :
    (sortSpots (spotsOf [("x", (1 : ℝ))])).Sorted spotLE :=
  ranks_sorted [("x", 1)] _ ⟨[("x", 1)], List.Perm.refl _, rfl⟩

/-- C6 (confirmed): the word-list pattern is the comma-separated words
joined with the alternation operator `|`, and (with the words read as
literal regex words, which is how the spec and the program use them) it
matches exactly the messages containing at least one of the words as a
substring. -/
theorem words_pattern_alternation (w s : List Char) :
    reg_from_words (some w) = some (List.intercalate ['|'] (w.splitOn ',')) ∧
    (isMatch (wordsRE (w.splitOn ',')) s ↔ ∃ u ∈ w.splitOn ',', u <:+: s) := by
  refine ⟨rfl, isMatch_wordsRE _ ?_ s⟩
  exact List.splitOnP_ne_nil _ w

/-- C7 (confirmed): pattern priority: a configured word list wins over a
configured explicit pattern; an explicit pattern is used verbatim; with
neither configured the default pattern `"(fix(es|ed)?|close([sd])?)"` is
used, and it matches a message exactly when the message contains "fix",
"fixes", "fixed", "close", "closes", or "closed" as a substring. -/
theorem pattern_priority_and_default (s : List Char) :
    (∀ w r, reg (some w) r = List.intercalate ['|'] (w.splitOn ',')) ∧
    (∀ r, reg none (some r) = r) ∧
    reg none none = "(fix(es|ed)?|close([sd])?)".toList ∧
    (isMatch defaultRE s ↔
      ("fix".toList <:+: s ∨ "fixes".toList <:+: s ∨ "fixed".toList <:+: s ∨
        "close".toList <:+: s ∨ "closes".toList <:+: s ∨ "closed".toList <:+: s)) := by
  refine ⟨fun w r => rfl, fun r => rfl, rfl, ?_⟩
  have e1 : "fix".toList ++ "es".toList = "fixes".toList := by decide
  have e2 : "fix".toList ++ "ed".toList = "fixed".toList := by decide
  have e3 : "close".toList ++ "s".toList = "closes".toList := by decide
  have e4 : "close".toList ++ "d".toList = "closed".toList := by decide
  rw [defaultRE, isMatch_alt, isMatch_cat_lit_opt, isMatch_cat_lit_opt, e1, e2, e3, e4]
  tauto

/-- C8 (confirmed): whenever the scan produces a score mapping (nonempty fix
list), the set of file paths in the ranked hotspot output is exactly the set
of paths appearing in at least one Fix record's file list: no spurious
files, none missing. -/
theorem hotspot_files_iff_fix_files (now : Int) (fixes : List Fix)
    (m : List (String × ℝ)) (hm : scanScores now fixes = some m)
    (out : List Spot) (ho : ranks m out) (p : String) :
    (∃ s ∈ out, s.file = p) ↔ ∃ f ∈ fixes, p ∈ f.files := by
  rw [scanScores] at hm
  rcases hg : fixes.getLast? with _ | lastFix <;> rw [hg] at hm
  · exact absurd hm (by simp)
  · injection hm with hm1
    obtain ⟨l, hperm, rfl⟩ := ho
    have hkeys := mem_keys_foldl_addFix now lastFix.date fixes [] p
    simp only [List.map_nil, List.not_mem_nil, or_false] at hkeys
    rw [← hkeys, hm1]
    simp only [sortSpots, List.mem_insertionSort, spotsOf, List.mem_map]
    constructor
    · rintro ⟨s, ⟨q, hq, rfl⟩, hfile⟩
      exact ⟨q, hperm.mem_iff.mpr hq, hfile⟩
    · rintro ⟨q, hq, hq1⟩
      exact ⟨⟨q.1, q.2⟩, ⟨q, hperm.mem_iff.mp hq, rfl⟩, hq1⟩

theorem hotspot_files_iff_fix_files_witness :
    ((∃ s ∈ sortSpots (spotsOf [("a", diffReal 10 0 0 + 0)]), s.file = "a") ↔
      ∃ f ∈ [(⟨"fix", 0, ["a"]⟩ : Fix)], "a" ∈ f.files) :=
  hotspot_files_iff_fix_files 10 [⟨"fix", 0, ["a"]⟩] [("a", diffReal 10 0 0 + 0)] rfl
    _ ⟨[("a", diffReal 10 0 0 + 0)], List.Perm.refl _, rfl⟩ "a"

/-- C9 (confirmed): score accumulation is monotonic: folding one more Fix
into the mapping never decreases any file's score, because each occurrence
adds the weight `1/(1 + exp(-12 t + 12))`, which is positive. -/
theorem score_accumulation_monotonic (now oldest : Int)
    (m : List (String × ℝ)) (f : Fix) (p : String) :
    getScore m p ≤ getScore (addFix now oldest m f) p := by
  rw [getScore_addFix]
  have hw : 0 ≤ diffReal now oldest f.date := by
    rw [diffReal]
    positivity
  have h2 : (0 : ℝ) ≤ (f.files.count p : ℝ) * diffReal now oldest f.date :=
    mul_nonneg (Nat.cast_nonneg _) hw
  linarith

/-- C10 (confirmed): the descending sort unwraps the partial f64
comparison: on a spot list whose scores are all non-NaN every performed
comparison is defined and the sort completes; on a list containing a NaN
score (which `diff` produces exactly when both `now - oldest` and
`now - fix_date` are zero seconds) the comparator unwraps `None` and the
sort panics (`none`). -/
theorem sort_unwrap_panic_characterization :
    (∀ l : List SpotF, (∀ s ∈ l, s.score ≠ F.nan) → (sortSpotsF l).isSome = true) ∧
    diff 0 0 0 = F.nan ∧
    sortSpotsF [⟨"a", F.nan⟩, ⟨"b", F.fin 1⟩] = none :=
  ⟨sortSpotsF_isSome, diff_self_nan 0, rfl⟩

theorem sort_unwrap_panic_characterization_witness :
    (sortSpotsF [⟨"x", F.fin 1⟩]).isSome = true :=
  sort_unwrap_panic_characterization.1 [⟨"x", F.fin 1⟩] (by
    intro s hs
    rcases List.mem_cons.mp hs with h | h
    · subst h
      intro hc
      exact F.noConfusion hc
    · exact absurd h (List.not_mem_nil s))

end Bugspots
